import Mathlib

/-!
Verification of the lattice-utility core (jdftx/core/LatticeUtils.cpp):
lattice-basis reduction, Bravais-lattice symmetry search, supercell
construction from a symmetry-closed k-point mesh, and the Wigner-Seitz
real-space cell map.

The embedding works over exact rationals: each floating-point quantity of
the source is modelled as a rational number, and every comparison that the
source performs on square roots (`nrm2`, vector lengths) is restated as the
exactly equivalent rational comparison between squared quantities.
-/

namespace LatticeUtils

open Matrix

abbrev M3Q := Matrix (Fin 3) (Fin 3) ℚ
abbrev M3Z := Matrix (Fin 3) (Fin 3) ℤ
abbrev V3Q := Fin 3 → ℚ
abbrev V3Z := Fin 3 → ℤ

/-- Modelled from the spec: the single global numeric tolerance constant
("a single tolerance constant as ambient global state threaded through every
geometric comparison", §9).  Its defining header is not among the provided
sources; the documented default value 10⁻⁴ is used. -/
def symmThreshold : ℚ := 1/10000

/-- Squared Frobenius norm of a 3×3 matrix: the square of the source's
`nrm2` (which is the square root of the sum of squared entries). -/
def nrm2sq (A : M3Q) : ℚ := ∑ i, ∑ j, (A i j)^2

/-- Entrywise cast of an integer matrix to a rational matrix. -/
def intCast3 (m : M3Z) : M3Q := m.map (fun z => (z : ℚ))

theorem nrm2sq_nonneg (A : M3Q) : 0 ≤ nrm2sq A := by
  refine Finset.sum_nonneg fun i _ => Finset.sum_nonneg fun j _ => sq_nonneg _

theorem nrm2sq_eq_zero {A : M3Q} (h : nrm2sq A = 0) : A = 0 := by
  have h2 : ∀ i j, (A i j)^2 = 0 := by
    intro i j
    have hrow := (Finset.sum_eq_zero_iff_of_nonneg
      (fun i _ => Finset.sum_nonneg fun j _ => sq_nonneg (A i j))).mp h i (Finset.mem_univ i)
    exact (Finset.sum_eq_zero_iff_of_nonneg
      (fun j _ => sq_nonneg (A i j))).mp hrow j (Finset.mem_univ j)
  ext i j
  simpa using (pow_eq_zero_iff two_ne_zero).mp (h2 i j)

theorem intCast3_mul (a b : M3Z) : intCast3 (a * b) = intCast3 a * intCast3 b := by
  ext i j
  simp only [intCast3, Matrix.map_apply, Matrix.mul_apply]
  push_cast
  ring

theorem intCast3_one : intCast3 1 = 1 := by
  ext i j
  by_cases hij : i = j <;> simp [intCast3, Matrix.one_apply, hij]

theorem intCast3_det (a : M3Z) : (intCast3 a).det = ((a.det : ℤ) : ℚ) := by
  have h := RingHom.map_det (Int.castRingHom ℚ) a
  simpa [intCast3, Int.coe_castRingHom] using h.symm

/-- The source's acceptance test for an elementary shear,
`nrm2(Rproposed) < nrm2(Rreduced) - symmThreshold`, restated exactly over the
rationals: with a = nrm2²(Rproposed), b = nrm2²(Rreduced) and ε = symmThreshold,
√a < √b − ε holds iff 0 < b − a − ε² and 4ε²a < (b − a − ε²)². -/
def acceptShear (Rproposed Rreduced : M3Q) : Bool :=
  let a := nrm2sq Rproposed
  let c := nrm2sq Rreduced - a - symmThreshold^2
  decide (0 < c) && decide (4 * symmThreshold^2 * a < c^2)

/-- The rational acceptance test is exactly the real-number comparison
performed by the source on square-root norms. -/
theorem acceptShear_iff_sqrt (Rp Rr : M3Q) :
    acceptShear Rp Rr = true ↔
      Real.sqrt ((nrm2sq Rp : ℚ) : ℝ) <
        Real.sqrt ((nrm2sq Rr : ℚ) : ℝ) - ((symmThreshold : ℚ) : ℝ) := by
  have key : acceptShear Rp Rr = true ↔
      ((0:ℚ) < nrm2sq Rr - nrm2sq Rp - symmThreshold^2 ∧
       4 * symmThreshold^2 * nrm2sq Rp <
         (nrm2sq Rr - nrm2sq Rp - symmThreshold^2)^2) := by
    simp [acceptShear]
  rw [key]
  have ha : (0:ℝ) ≤ ((nrm2sq Rp : ℚ) : ℝ) := by exact_mod_cast nrm2sq_nonneg Rp
  have hb : (0:ℝ) ≤ ((nrm2sq Rr : ℚ) : ℝ) := by exact_mod_cast nrm2sq_nonneg Rr
  have he : (0:ℝ) < ((symmThreshold : ℚ) : ℝ) := by norm_num [symmThreshold]
  set a : ℝ := ((nrm2sq Rp : ℚ) : ℝ) with hadef
  set b : ℝ := ((nrm2sq Rr : ℚ) : ℝ) with hbdef
  set e : ℝ := ((symmThreshold : ℚ) : ℝ) with hedef
  have hsa : Real.sqrt a ^ 2 = a := Real.sq_sqrt ha
  have hsb : Real.sqrt b ^ 2 = b := Real.sq_sqrt hb
  have hsa0 : 0 ≤ Real.sqrt a := Real.sqrt_nonneg a
  have hsb0 : 0 ≤ Real.sqrt b := Real.sqrt_nonneg b
  constructor
  · rintro ⟨hc, hq⟩
    have hc' : (0:ℝ) < b - a - e^2 := by
      rw [hadef, hbdef, hedef]
      exact_mod_cast hc
    have hq' : 4 * e^2 * a < (b - a - e^2)^2 := by
      rw [hadef, hbdef, hedef]
      exact_mod_cast hq
    have h2e : (0:ℝ) ≤ 2 * e * Real.sqrt a := by positivity
    -- from c² > 4e²a = (2e√a)² and c > 0, conclude 2e√a < c
    have h2 : 2 * e * Real.sqrt a < b - a - e^2 := by
      by_contra hcon
      push_neg at hcon
      have hmul := mul_self_le_mul_self (le_of_lt hc') hcon
      nlinarith [hsa]
    have h3 : (Real.sqrt a + e)^2 < b := by nlinarith [hsa]
    have h4 : Real.sqrt a + e < Real.sqrt b := by
      have := Real.sqrt_lt_sqrt (by positivity) h3
      rwa [Real.sqrt_sq (by positivity)] at this
    linarith
  · intro h
    have h1 : Real.sqrt a + e < Real.sqrt b := by linarith
    have h2 : (Real.sqrt a + e)^2 < b := by
      have := mul_self_lt_mul_self (by positivity) h1
      nlinarith [hsb]
    have hge : (0:ℝ) ≤ 2 * e * Real.sqrt a := by positivity
    have hc0 : (0:ℝ) < b - a - e^2 := by nlinarith [hsa]
    have hs1 : (0:ℝ) < b - a - e^2 - 2 * e * Real.sqrt a := by nlinarith [hsa]
    have hs2 : (0:ℝ) < b - a - e^2 + 2 * e * Real.sqrt a := by
      have : (0:ℝ) ≤ 2 * e * Real.sqrt a := by positivity
      linarith
    have hq0 : 4 * e^2 * a < (b - a - e^2)^2 := by
      have hmul := mul_pos hs1 hs2
      nlinarith [hsa]
    constructor
    · have : (0:ℝ) < b - a - e^2 := hc0
      rw [hadef, hbdef, hedef] at this
      exact_mod_cast this
    · have : 4 * e^2 * a < (b - a - e^2)^2 := hq0
      rw [hadef, hbdef, hedef] at this
      exact_mod_cast this

/-- State carried through lattice reduction: the working lattice and the
accumulated transmission matrices (`Rreduced`, `t`, `tInv` of the source). -/
structure RedState where
  Rreduced : M3Q
  t : M3Z
  tInv : M3Z

/-- Elementary shear `d` of the source: identity with `d(k2,k1) = i` and
`d(k3,k1) = j`, where `k2 = (k1+1)%3`, `k3 = (k1+2)%3`. -/
def shearMat (k1 : Fin 3) (i j : ℤ) : M3Z := Matrix.of fun r c =>
  if r = c then 1
  else if c = k1 ∧ r = k1 + 1 then i
  else if c = k1 ∧ r = k1 + 2 then j
  else 0

/-- Elementary inverse shear `dInv`: identity with `dInv(k2,k1) = -i`,
`dInv(k3,k1) = -j`. -/
def shearInvMat (k1 : Fin 3) (i j : ℤ) : M3Z := Matrix.of fun r c =>
  if r = c then 1
  else if c = k1 ∧ r = k1 + 1 then -i
  else if c = k1 ∧ r = k1 + 2 then -j
  else 0

/-- The candidate shears of one sweep, in source order: `k1 = 0,1,2` outer,
`i = -1,0,1`, `j = -1,0,1` inner. -/
def shearCandidates : List (Fin 3 × ℤ × ℤ) :=
  ([0, 1, 2] : List (Fin 3)).flatMap fun k1 =>
    ([-1, 0, 1] : List ℤ).flatMap fun i =>
      ([-1, 0, 1] : List ℤ).map fun j => (k1, i, j)

/-- One candidate-shear test of the reduction loop body: if the sheared
lattice passes `acceptShear`, update `Rreduced`, `t`, `tInv`. -/
def shearStep (s : RedState) (c : Fin 3 × ℤ × ℤ) : RedState × Bool :=
  let d := shearMat c.1 c.2.1 c.2.2
  let Rproposed := s.Rreduced * intCast3 d
  if acceptShear Rproposed s.Rreduced then
    ({ Rreduced := Rproposed,
       t := s.t * d,
       tInv := shearInvMat c.1 c.2.1 c.2.2 * s.tInv }, true)
  else (s, false)

/-- Accumulating step of a sweep: run one candidate-shear test and OR the
`changed` flag. -/
def sweepStep (acc : RedState × Bool) (c : Fin 3 × ℤ × ℤ) : RedState × Bool :=
  ((shearStep acc.1 c).1, acc.2 || (shearStep acc.1 c).2)

/-- One full sweep over all candidate shears, with the `changed` flag. -/
def sweep (s : RedState) : RedState × Bool :=
  shearCandidates.foldl sweepStep (s, false)

/-- The `while(true)` loop of `reduceLatticeVectors`, with explicit fuel.
The fuel below is always sufficient because every accepted shear strictly
decreases the squared norm by more than `symmThreshold²`. -/
def reduceLoop : ℕ → RedState → RedState
  | 0, s => s
  | Nat.succ fuel, s =>
    let r := sweep s
    if r.2 then reduceLoop fuel r.1 else r.1

/-- A fuel bound sufficient for termination of the reduction loop. -/
def reduceFuel (R : M3Q) : ℕ := ⌊nrm2sq R * 100000000⌋₊ + 1

/-- `reduceLatticeVectors` of the source: iteratively shear the lattice
toward smaller Frobenius norm, tracking the transmission matrices. -/
def reduceLatticeVectors (R : M3Q) : RedState :=
  reduceLoop (reduceFuel R) ⟨R, 1, 1⟩

/-! ### Invariants of the reduction loop -/

theorem shearMat_mul_shearInvMat (k1 : Fin 3) (i j : ℤ) :
    shearMat k1 i j * shearInvMat k1 i j = 1 := by
  fin_cases k1 <;>
  · ext r c
    fin_cases r <;> fin_cases c <;>
      simp [shearMat, shearInvMat, Matrix.mul_apply, Fin.sum_univ_three,
        Matrix.one_apply, Fin.ext_iff]

theorem shearMat_det (k1 : Fin 3) (i j : ℤ) : (shearMat k1 i j).det = 1 := by
  fin_cases k1 <;>
    simp [shearMat, Matrix.det_fin_three, Fin.ext_iff]

/-- Invariant maintained by every step of the reduction:
`Rreduced = R·t`, `t·tInv = I`, and `det t = 1`. -/
def RedInv (R : M3Q) (s : RedState) : Prop :=
  s.Rreduced = R * intCast3 s.t ∧ s.t * s.tInv = 1 ∧ s.t.det = 1

theorem shearStep_inv {R : M3Q} {s : RedState} (c : Fin 3 × ℤ × ℤ)
    (h : RedInv R s) : RedInv R (shearStep s c).1 := by
  obtain ⟨h1, h2, h3⟩ := h
  unfold shearStep
  by_cases hacc : acceptShear (s.Rreduced * intCast3 (shearMat c.1 c.2.1 c.2.2)) s.Rreduced
  · simp only [hacc, if_true]
    refine ⟨?_, ?_, ?_⟩
    · rw [h1, intCast3_mul, Matrix.mul_assoc]
    · calc s.t * shearMat c.1 c.2.1 c.2.2 *
            (shearInvMat c.1 c.2.1 c.2.2 * s.tInv)
          = s.t * (shearMat c.1 c.2.1 c.2.2 * shearInvMat c.1 c.2.1 c.2.2) * s.tInv := by
            noncomm_ring
        _ = 1 := by rw [shearMat_mul_shearInvMat, Matrix.mul_one, h2]
    · rw [Matrix.det_mul, h3, shearMat_det, one_mul]
  · simp only [hacc, if_false]
    exact ⟨h1, h2, h3⟩

theorem foldl_shear_inv {R : M3Q} (l : List (Fin 3 × ℤ × ℤ)) :
    ∀ acc : RedState × Bool, RedInv R acc.1 →
      RedInv R (l.foldl sweepStep acc).1 := by
  induction l with
  | nil => intro acc h; exact h
  | cons c l ih =>
      intro acc h
      rw [List.foldl_cons]
      exact ih _ (shearStep_inv c h)

theorem sweep_inv {R : M3Q} {s : RedState} (h : RedInv R s) :
    RedInv R (sweep s).1 :=
  foldl_shear_inv shearCandidates (s, false) h

theorem reduceLoop_inv {R : M3Q} :
    ∀ (fuel : ℕ) (s : RedState), RedInv R s → RedInv R (reduceLoop fuel s) := by
  intro fuel
  induction fuel with
  | zero => intro s h; exact h
  | succ n ih =>
      intro s h
      unfold reduceLoop
      by_cases hb : (sweep s).2
      · simp only [hb, if_true]
        exact ih _ (sweep_inv h)
      · simp only [hb, if_false]
        exact sweep_inv h

theorem reduceLatticeVectors_inv (R : M3Q) :
    RedInv R (reduceLatticeVectors R) := by
  apply reduceLoop_inv
  refine ⟨?_, ?_, ?_⟩
  · rw [intCast3_one, Matrix.mul_one]
  · rw [Matrix.mul_one]
  · exact Matrix.det_one

/-! ### Termination of the reduction loop -/

theorem shearStep_flag_false {s : RedState} {c : Fin 3 × ℤ × ℤ}
    (h : (shearStep s c).2 = false) : (shearStep s c).1 = s := by
  unfold shearStep at h ⊢
  by_cases hacc : acceptShear (s.Rreduced * intCast3 (shearMat c.1 c.2.1 c.2.2)) s.Rreduced
  · simp [hacc] at h
  · simp [hacc]

theorem foldl_shear_flag_false (l : List (Fin 3 × ℤ × ℤ)) :
    ∀ acc : RedState × Bool,
      (l.foldl sweepStep acc).2 = false →
      (l.foldl sweepStep acc).1 = acc.1 ∧ acc.2 = false := by
  induction l with
  | nil => intro acc h; exact ⟨rfl, h⟩
  | cons c l ih =>
      intro acc h
      rw [List.foldl_cons] at h ⊢
      obtain ⟨hstate, hflag⟩ := ih _ h
      have hflag2 : acc.2 = false ∧ (shearStep acc.1 c).2 = false := by
        rcases Bool.or_eq_false_iff.mp hflag with ⟨h1, h2⟩
        exact ⟨h1, h2⟩
      refine ⟨?_, hflag2.1⟩
      rw [hstate]
      show (shearStep acc.1 c).1 = acc.1
      exact shearStep_flag_false hflag2.2

theorem sweep_flag_false {s : RedState} (h : (sweep s).2 = false) :
    (sweep s).1 = s :=
  (foldl_shear_flag_false shearCandidates (s, false) h).1

theorem foldl_shear_Rred_only (l : List (Fin 3 × ℤ × ℤ)) :
    ∀ acc acc' : RedState × Bool,
      acc.1.Rreduced = acc'.1.Rreduced → acc.2 = acc'.2 →
      (l.foldl sweepStep acc).1.Rreduced = (l.foldl sweepStep acc').1.Rreduced ∧
      (l.foldl sweepStep acc).2 = (l.foldl sweepStep acc').2 := by
  induction l with
  | nil => intro acc acc' h1 h2; exact ⟨h1, h2⟩
  | cons c l ih =>
      intro acc acc' h1 h2
      rw [List.foldl_cons, List.foldl_cons]
      apply ih
      · unfold sweepStep shearStep
        rw [h1]
        by_cases hacc : acceptShear (acc'.1.Rreduced * intCast3 (shearMat c.1 c.2.1 c.2.2))
            acc'.1.Rreduced <;> simp [hacc, h1]
      · unfold sweepStep shearStep
        rw [h1, h2]
        by_cases hacc : acceptShear (acc'.1.Rreduced * intCast3 (shearMat c.1 c.2.1 c.2.2))
            acc'.1.Rreduced <;> simp [hacc, h1, h2]

theorem sweep_Rred_only (s s' : RedState) (h : s.Rreduced = s'.Rreduced) :
    (sweep s).2 = (sweep s').2 :=
  (foldl_shear_Rred_only shearCandidates (s, false) (s', false) h rfl).2

theorem acceptShear_decreases {Rp Rr : M3Q} (h : acceptShear Rp Rr = true) :
    nrm2sq Rp < nrm2sq Rr - symmThreshold^2 := by
  simp only [acceptShear, Bool.and_eq_true, decide_eq_true_eq] at h
  linarith [h.1]

theorem shearStep_decreases (s : RedState) (c : Fin 3 × ℤ × ℤ) :
    nrm2sq (shearStep s c).1.Rreduced ≤ nrm2sq s.Rreduced ∧
    ((shearStep s c).2 = true →
      nrm2sq (shearStep s c).1.Rreduced < nrm2sq s.Rreduced - symmThreshold^2) := by
  unfold shearStep
  by_cases hacc : acceptShear (s.Rreduced * intCast3 (shearMat c.1 c.2.1 c.2.2)) s.Rreduced
  · have hdec := acceptShear_decreases hacc
    have heps : (0:ℚ) ≤ symmThreshold^2 := by positivity
    simp only [hacc, if_true]
    exact ⟨by linarith, fun _ => hdec⟩
  · simp [hacc]

theorem foldl_shear_decreases (l : List (Fin 3 × ℤ × ℤ)) :
    ∀ acc : RedState × Bool,
      nrm2sq (l.foldl sweepStep acc).1.Rreduced ≤ nrm2sq acc.1.Rreduced ∧
      ((l.foldl sweepStep acc).2 = true →
        acc.2 = true ∨
        nrm2sq (l.foldl sweepStep acc).1.Rreduced <
          nrm2sq acc.1.Rreduced - symmThreshold^2) := by
  induction l with
  | nil => intro acc; exact ⟨le_refl _, fun h => Or.inl h⟩
  | cons c l ih =>
      intro acc
      rw [List.foldl_cons]
      obtain ⟨hle, hlt⟩ := ih (sweepStep acc c)
      obtain ⟨hle0, hlt0⟩ := shearStep_decreases acc.1 c
      have hfst : (sweepStep acc c).1 = (shearStep acc.1 c).1 := rfl
      have hsnd : (sweepStep acc c).2 = (acc.2 || (shearStep acc.1 c).2) := rfl
      rw [hfst] at hle hlt
      refine ⟨le_trans hle hle0, ?_⟩
      intro hflag
      rcases hlt hflag with h | h
      · rw [hsnd] at h
        rcases Bool.or_eq_true_iff.mp h with h2 | h2
        · exact Or.inl h2
        · exact Or.inr (lt_of_le_of_lt hle (hlt0 h2))
      · exact Or.inr (lt_of_lt_of_le h (by linarith))

theorem sweep_decreases {s : RedState} (h : (sweep s).2 = true) :
    nrm2sq (sweep s).1.Rreduced < nrm2sq s.Rreduced - symmThreshold^2 := by
  rcases (foldl_shear_decreases shearCandidates (s, false)).2 h with h2 | h2
  · exact absurd h2 (by simp)
  · exact h2

/-- Natural-number measure of the reduction state, strictly decreased by
every changing sweep. -/
def redMeasure (A : M3Q) : ℕ := ⌊nrm2sq A * 100000000⌋₊

theorem redMeasure_lt {a b : M3Q}
    (h : nrm2sq a < nrm2sq b - symmThreshold^2) :
    redMeasure a < redMeasure b := by
  have ha : (0:ℚ) ≤ nrm2sq a * 100000000 := by
    have := nrm2sq_nonneg a; positivity
  have hab : nrm2sq a * 100000000 + 1 ≤ nrm2sq b * 100000000 := by
    have heps : symmThreshold^2 * 100000000 = 1 := by norm_num [symmThreshold]
    nlinarith
  calc redMeasure a < redMeasure a + 1 := Nat.lt_succ_self _
    _ = ⌊nrm2sq a * 100000000 + 1⌋₊ := (Nat.floor_add_one ha).symm
    _ ≤ ⌊nrm2sq b * 100000000⌋₊ := Nat.floor_le_floor hab

theorem reduceLoop_fix :
    ∀ (fuel : ℕ) (s : RedState), redMeasure s.Rreduced < fuel →
      (sweep (reduceLoop fuel s)).2 = false := by
  intro fuel
  induction fuel with
  | zero => intro s h; exact absurd h (Nat.not_lt_zero _)
  | succ n ih =>
      intro s h
      unfold reduceLoop
      by_cases hb : (sweep s).2
      · simp only [hb, if_true]
        apply ih
        have hlt := redMeasure_lt (sweep_decreases hb)
        omega
      · simp only [hb, if_false]
        rw [sweep_flag_false (by simpa using hb)]
        simpa using hb

theorem reduceLatticeVectors_fix (R : M3Q) :
    (sweep (reduceLatticeVectors R)).2 = false := by
  apply reduceLoop_fix
  simp [reduceFuel, redMeasure]

/-! ### Claim theorems for the reduction -/

/-- C4: for every lattice `R` (in particular every non-degenerate one),
`reduceLatticeVectors` returns `Rreduced`, `T` (= `t`) and `Tinv` with
`Rreduced = R · T` exactly and `T · Tinv = I`, both integer matrices. -/
theorem reduceLatticeVectors_correct (R : M3Q) :
    (reduceLatticeVectors R).Rreduced = R * intCast3 (reduceLatticeVectors R).t ∧
    (reduceLatticeVectors R).t * (reduceLatticeVectors R).tInv = 1 := by
  obtain ⟨h1, h2, _⟩ := reduceLatticeVectors_inv R
  exact ⟨h1, h2⟩

/-- C10: every elementary shear has determinant exactly 1; hence the
accumulated transmission matrix has determinant exactly +1 and the reduced
lattice has the same determinant as the input: reduction preserves volume
and orientation. -/
theorem reduceLatticeVectors_det (R : M3Q) :
    (∀ (k1 : Fin 3) (i j : ℤ), (shearMat k1 i j).det = 1) ∧
    (reduceLatticeVectors R).t.det = 1 ∧
    (reduceLatticeVectors R).Rreduced.det = R.det := by
  obtain ⟨h1, _, h3⟩ := reduceLatticeVectors_inv R
  refine ⟨shearMat_det, h3, ?_⟩
  rw [h1, Matrix.det_mul, intCast3_det, h3]
  norm_num

/-- C9: `reduceLatticeVectors` is idempotent: reducing the reduced lattice
returns it unchanged (at the fixpoint no candidate shear is accepted). -/
theorem reduceLatticeVectors_idempotent (R : M3Q) :
    (reduceLatticeVectors ((reduceLatticeVectors R).Rreduced)).Rreduced =
      (reduceLatticeVectors R).Rreduced := by
  have hfix := reduceLatticeVectors_fix R
  set r := reduceLatticeVectors R with hr
  show (reduceLoop (reduceFuel r.Rreduced) ⟨r.Rreduced, 1, 1⟩).Rreduced = r.Rreduced
  have hfuel : reduceFuel r.Rreduced = redMeasure r.Rreduced + 1 := rfl
  rw [hfuel]
  have hflag : (sweep (⟨r.Rreduced, 1, 1⟩ : RedState)).2 = false := by
    rw [sweep_Rred_only (⟨r.Rreduced, 1, 1⟩ : RedState) r rfl]
    exact hfix
  have hstep : reduceLoop (redMeasure r.Rreduced + 1) ⟨r.Rreduced, 1, 1⟩ =
      (sweep (⟨r.Rreduced, 1, 1⟩ : RedState)).1 := by
    unfold reduceLoop
    simp [hflag]
  rw [hstep, sweep_flag_false hflag]

/-! ### Symmetries of the Bravais lattice: `getSymmetries` -/

/-- The metric tensor of the reduced lattice, `(~Rred) * Rred`. -/
def reducedMetric (R : M3Q) : M3Q :=
  ((reduceLatticeVectors R).Rreduced)ᵀ * (reduceLatticeVectors R).Rreduced

/-- All 3⁹ integer matrices with every entry in {-1, 0, 1}, in the source's
nested-loop order. -/
def allCandidateMatrices : List M3Z :=
  ([-1, 0, 1] : List ℤ).flatMap fun a00 =>
  ([-1, 0, 1] : List ℤ).flatMap fun a01 =>
  ([-1, 0, 1] : List ℤ).flatMap fun a02 =>
  ([-1, 0, 1] : List ℤ).flatMap fun a10 =>
  ([-1, 0, 1] : List ℤ).flatMap fun a11 =>
  ([-1, 0, 1] : List ℤ).flatMap fun a12 =>
  ([-1, 0, 1] : List ℤ).flatMap fun a20 =>
  ([-1, 0, 1] : List ℤ).flatMap fun a21 =>
  ([-1, 0, 1] : List ℤ).map fun a22 =>
    !![a00, a01, a02; a10, a11, a12; a20, a21, a22]

/-- The source's metric-invariance test
`nrm2(metric - (~m)*metric*m) < symmThreshold * nrm2(metric)`, restated
exactly over the rationals by squaring both (nonnegative) sides. -/
def symMetricTest (metric : M3Q) (m : M3Z) : Bool :=
  decide (nrm2sq (metric - (intCast3 m)ᵀ * metric * intCast3 m) <
    symmThreshold^2 * nrm2sq metric)

/-- The source's truncation filter: a symmetry is broken when some nonzero
entry of `mOrig` couples a truncated and a non-truncated direction. -/
def symBroken (mOrig : M3Z) (isTruncated : Fin 3 → Bool) : Bool :=
  decide (∃ i j, mOrig i j ≠ 0 ∧ isTruncated i ≠ isTruncated j)

/-- `getSymmetries` of the source: reduce the lattice, then keep every
candidate matrix (entries in {-1,0,1}) that leaves the reduced metric
invariant, mapped back to original lattice coordinates as `t * m * tInv`,
and not broken by the truncation mask. -/
def getSymmetries (R : M3Q) (isTruncated : Fin 3 → Bool) : List M3Z :=
  allCandidateMatrices.filterMap fun m =>
    if symMetricTest (reducedMetric R) m then
      if symBroken ((reduceLatticeVectors R).t * m * (reduceLatticeVectors R).tInv)
          isTruncated then none
      else some ((reduceLatticeVectors R).t * m * (reduceLatticeVectors R).tInv)
    else none

theorem mem_allCandidateMatrices (m : M3Z)
    (h : ∀ r c, m r c = -1 ∨ m r c = 0 ∨ m r c = 1) :
    m ∈ allCandidateMatrices := by
  have hmem : ∀ r c, m r c ∈ ([-1, 0, 1] : List ℤ) := by
    intro r c
    rcases h r c with h1 | h1 | h1 <;> simp [h1]
  have hm : m = !![m 0 0, m 0 1, m 0 2; m 1 0, m 1 1, m 1 2; m 2 0, m 2 1, m 2 2] := by
    ext i j
    fin_cases i <;> fin_cases j <;> rfl
  unfold allCandidateMatrices
  simp only [List.mem_flatMap, List.mem_map]
  exact ⟨m 0 0, hmem 0 0, m 0 1, hmem 0 1, m 0 2, hmem 0 2,
    m 1 0, hmem 1 0, m 1 1, hmem 1 1, m 1 2, hmem 1 2,
    m 2 0, hmem 2 0, m 2 1, hmem 2 1, m 2 2, hmem 2 2, hm.symm⟩

theorem nrm2sq_zero : nrm2sq 0 = 0 := by
  simp [nrm2sq]

theorem nrm2sq_pos_of_ne_zero {A : M3Q} (h : A ≠ 0) : 0 < nrm2sq A := by
  rcases lt_or_eq_of_le (nrm2sq_nonneg A) with h1 | h1
  · exact h1
  · exact absurd (nrm2sq_eq_zero h1.symm) h

/-- Helper: the reduced lattice keeps the determinant of the input. -/
theorem reduceLatticeVectors_det_aux (R : M3Q) :
    (reduceLatticeVectors R).Rreduced.det = R.det := by
  obtain ⟨h1, _, h3⟩ := reduceLatticeVectors_inv R
  rw [h1, Matrix.det_mul, intCast3_det, h3]
  norm_num

theorem reducedMetric_ne_zero {R : M3Q} (h : R.det ≠ 0) : reducedMetric R ≠ 0 := by
  intro hz
  have hdet : (reducedMetric R).det = R.det ^ 2 := by
    unfold reducedMetric
    rw [Matrix.det_mul, Matrix.det_transpose, reduceLatticeVectors_det_aux]
    ring
  rw [hz, Matrix.det_zero ⟨0⟩] at hdet
  exact h (pow_eq_zero_iff two_ne_zero |>.mp hdet.symm)

/-- Helper: the identity is accepted by `getSymmetries` on every
non-degenerate lattice and every truncation mask. -/
theorem one_mem_getSymmetries (R : M3Q) (isTruncated : Fin 3 → Bool)
    (h : R.det ≠ 0) : (1 : M3Z) ∈ getSymmetries R isTruncated := by
  have hmem : (1 : M3Z) ∈ allCandidateMatrices := by
    apply mem_allCandidateMatrices
    intro r c
    by_cases hrc : r = c <;> simp [Matrix.one_apply, hrc]
  have htest : symMetricTest (reducedMetric R) 1 = true := by
    unfold symMetricTest
    rw [intCast3_one]
    simp only [Matrix.transpose_one, Matrix.one_mul, Matrix.mul_one, sub_self]
    rw [nrm2sq_zero]
    have hpos := nrm2sq_pos_of_ne_zero (reducedMetric_ne_zero h)
    have heps : (0:ℚ) < symmThreshold^2 := by norm_num [symmThreshold]
    simp only [decide_eq_true_eq]
    positivity
  have horig : (reduceLatticeVectors R).t * (reduceLatticeVectors R).tInv = 1 :=
    (reduceLatticeVectors_inv R).2.1
  have hbroken : symBroken (1 : M3Z) isTruncated = false := by
    unfold symBroken
    simp only [decide_eq_false_iff_not]
    rintro ⟨i, j, hne, htr⟩
    by_cases hij : i = j
    · exact htr (hij ▸ rfl)
    · exact hne (Matrix.one_apply_ne hij)
  refine List.mem_filterMap.mpr ⟨1, hmem, ?_⟩
  simp [htest, horig, hbroken]

/-- C5: for every non-degenerate lattice and truncation mask, the symmetry
list returned by `getSymmetries` contains the identity. -/
theorem getSymmetries_contains_identity (R : M3Q) (isTruncated : Fin 3 → Bool)
    (h : R.det ≠ 0) : (1 : M3Z) ∈ getSymmetries R isTruncated :=
  one_mem_getSymmetries R isTruncated h

/-- Witness for C5 at the concrete lattice `R = I`. -/
theorem getSymmetries_contains_identity_witness :
    Matrix.det (1 : M3Q) ≠ 0 ∧
      (1 : M3Z) ∈ getSymmetries 1 (fun _ => false) := by
  refine ⟨by simp, getSymmetries_contains_identity 1 (fun _ => false) (by simp)⟩

/-- Helper: membership in `getSymmetries` yields the underlying reduced-basis
candidate together with the passed metric test. -/
theorem mem_getSymmetries_elim {R : M3Q} {isTruncated : Fin 3 → Bool} {mOrig : M3Z}
    (h : mOrig ∈ getSymmetries R isTruncated) :
    ∃ m : M3Z,
      symMetricTest (reducedMetric R) m = true ∧
      mOrig = (reduceLatticeVectors R).t * m * (reduceLatticeVectors R).tInv := by
  obtain ⟨m, _, hsome⟩ := List.mem_filterMap.mp h
  by_cases htest : symMetricTest (reducedMetric R) m
  · refine ⟨m, htest, ?_⟩
    rw [if_pos htest] at hsome
    by_cases hbrk : symBroken ((reduceLatticeVectors R).t * m * (reduceLatticeVectors R).tInv)
        isTruncated
    · rw [if_pos hbrk] at hsome
      exact absurd hsome (by simp)
    · rw [if_neg hbrk] at hsome
      exact (Option.some_injective _ hsome).symm
  · rw [if_neg htest] at hsome
    exact absurd hsome (by simp)

/-- Helper: conjugation by a pair of mutually inverse matrices transports the
metric of a factored lattice. -/
theorem metric_factor_aux (R Tq Ti : M3Q) (h1 : Tq * Ti = 1) :
    Tiᵀ * ((R * Tq)ᵀ * (R * Tq)) * Ti = Rᵀ * R := by
  have hu1 : Tiᵀ * Tqᵀ = 1 := by
    rw [← Matrix.transpose_mul, h1, Matrix.transpose_one]
  calc Tiᵀ * ((R * Tq)ᵀ * (R * Tq)) * Ti
      = (Tiᵀ * Tqᵀ) * (Rᵀ * R) * (Tq * Ti) := by
        rw [Matrix.transpose_mul]; noncomm_ring
    _ = Rᵀ * R := by rw [hu1, h1, Matrix.one_mul, Matrix.mul_one]

/-- Helper: the defect of a conjugated metric under a conjugated operation is
the conjugate of the defect. -/
theorem defect_conj_aux (X Tq Ti Mq : M3Q) (h1 : Tq * Ti = 1) (h2 : Ti * Tq = 1) :
    Tiᵀ * X * Ti - (Tq * Mq * Ti)ᵀ * (Tiᵀ * X * Ti) * (Tq * Mq * Ti) =
      Tiᵀ * (X - Mqᵀ * X * Mq) * Ti := by
  have hu1 : Tqᵀ * Tiᵀ = 1 := by
    rw [← Matrix.transpose_mul, h2, Matrix.transpose_one]
  have hmid : (Tq * Mq * Ti)ᵀ * (Tiᵀ * X * Ti) * (Tq * Mq * Ti) =
      Tiᵀ * (Mqᵀ * X * Mq) * Ti := by
    rw [Matrix.transpose_mul, Matrix.transpose_mul]
    calc Tiᵀ * (Mqᵀ * Tqᵀ) * (Tiᵀ * X * Ti) * (Tq * Mq * Ti)
        = Tiᵀ * Mqᵀ * (Tqᵀ * Tiᵀ) * X * (Ti * Tq) * Mq * Ti := by noncomm_ring
      _ = Tiᵀ * (Mqᵀ * X * Mq) * Ti := by
          rw [hu1, h2]; noncomm_ring
  rw [hmid, Matrix.mul_sub, Matrix.sub_mul]

/-- C6: every operation returned by `getSymmetries` arises from a reduced-basis
candidate `m` passing the relative-tolerance metric test on the reduced metric
(the code's acceptance test), is mapped back as `mOrig = T·m·Tinv`, and the
defect of the original lattice metric `Rᵀ·R` under `mOrig` is exactly the
`Tinv`-conjugate of the reduced-metric defect of `m`. -/
theorem getSymmetries_metric_invariance (R : M3Q) (isTruncated : Fin 3 → Bool)
    (mOrig : M3Z) (h : mOrig ∈ getSymmetries R isTruncated) :
    ∃ m : M3Z,
      mOrig = (reduceLatticeVectors R).t * m * (reduceLatticeVectors R).tInv ∧
      nrm2sq (reducedMetric R - (intCast3 m)ᵀ * reducedMetric R * intCast3 m) <
        symmThreshold^2 * nrm2sq (reducedMetric R) ∧
      Rᵀ * R - (intCast3 mOrig)ᵀ * (Rᵀ * R) * intCast3 mOrig =
        (intCast3 (reduceLatticeVectors R).tInv)ᵀ *
          (reducedMetric R - (intCast3 m)ᵀ * reducedMetric R * intCast3 m) *
          intCast3 (reduceLatticeVectors R).tInv := by
  obtain ⟨m, htest, heq⟩ := mem_getSymmetries_elim h
  refine ⟨m, heq, ?_, ?_⟩
  · have := htest
    unfold symMetricTest at this
    simpa using this
  · obtain ⟨h1, h2, _⟩ := reduceLatticeVectors_inv R
    have htti : intCast3 (reduceLatticeVectors R).t * intCast3 (reduceLatticeVectors R).tInv
        = 1 := by rw [← intCast3_mul, h2, intCast3_one]
    have htit : intCast3 (reduceLatticeVectors R).tInv * intCast3 (reduceLatticeVectors R).t
        = 1 := Matrix.mul_eq_one_comm.mp htti
    have hmcast : intCast3 mOrig =
        intCast3 (reduceLatticeVectors R).t * intCast3 m *
          intCast3 (reduceLatticeVectors R).tInv := by
      rw [heq, intCast3_mul, intCast3_mul]
    have hRM : reducedMetric R =
        (R * intCast3 (reduceLatticeVectors R).t)ᵀ *
          (R * intCast3 (reduceLatticeVectors R).t) := by
      unfold reducedMetric
      rw [h1]
    have hmetric : Rᵀ * R =
        (intCast3 (reduceLatticeVectors R).tInv)ᵀ * reducedMetric R *
          intCast3 (reduceLatticeVectors R).tInv := by
      rw [hRM]
      exact (metric_factor_aux R _ _ htti).symm
    rw [hmcast, hmetric]
    exact defect_conj_aux (reducedMetric R) _ _ _ htti htit

/-- Witness for C6 at the concrete lattice `R = I` and `mOrig = I`. -/
theorem getSymmetries_metric_invariance_witness :
    (1 : M3Z) ∈ getSymmetries 1 (fun _ => false) ∧
      ∃ m : M3Z,
        (1 : M3Z) = (reduceLatticeVectors 1).t * m * (reduceLatticeVectors 1).tInv ∧
        nrm2sq (reducedMetric 1 - (intCast3 m)ᵀ * reducedMetric 1 * intCast3 m) <
          symmThreshold^2 * nrm2sq (reducedMetric 1) ∧
        (1 : M3Q)ᵀ * 1 - (intCast3 (1 : M3Z))ᵀ * ((1 : M3Q)ᵀ * 1) * intCast3 (1 : M3Z) =
          (intCast3 (reduceLatticeVectors 1).tInv)ᵀ *
            (reducedMetric 1 - (intCast3 m)ᵀ * reducedMetric 1 * intCast3 m) *
            intCast3 (reduceLatticeVectors 1).tInv := by
  have hmem := one_mem_getSymmetries 1 (fun _ => false) (by simp)
  exact ⟨hmem, getSymmetries_metric_invariance 1 (fun _ => false) 1 hmem⟩

/-! ### Supercell canonicalization: column pivoting (`Supercell::Supercell`,
lines 208-227) -/

/-- The source's permutation table
`{0,1,2}, {1,2,0}, {2,0,1}, {2,1,0}, {1,0,2}, {0,2,1}`. -/
def permTable : List (Fin 3 → Fin 3) :=
  [![0, 1, 2], ![1, 2, 0], ![2, 0, 1], ![2, 1, 0], ![1, 0, 2], ![0, 2, 1]]

/-- Squared length of column `j` of the integer supercell matrix. -/
def colNormSq (M : M3Z) (j : Fin 3) : ℤ := ∑ i, (M i j)^2

/-- The score the source actually computes for a permutation: the PRODUCT
over columns of (diagonal entry)² / (column squared length):
`score *= pow(col[k], 2); score /= col.length_squared();`. -/
def prodScore (M : M3Z) (p : Fin 3 → Fin 3) : ℚ :=
  ∏ k, ((M k (p k) : ℚ)^2 / (colNormSq M (p k) : ℚ))

/-- The score the specification describes: the SUM over columns of
(diagonal entry)² / (column squared length). -/
def sumScore (M : M3Z) (p : Fin 3 → Fin 3) : ℚ :=
  ∑ k, ((M k (p k) : ℚ)^2 / (colNormSq M (p k) : ℚ))

/-- Selection fold of the source: `maxScore = 0`, `pBest = 0`, update on
strict improvement of the product score. -/
def selectStep (M : M3Z) (acc : ℚ × (Fin 3 → Fin 3)) (p : Fin 3 → Fin 3) :
    ℚ × (Fin 3 → Fin 3) :=
  if prodScore M p > acc.1 then (prodScore M p, p) else acc

/-- The permutation the source applies to the supercell columns. -/
def selectPerm (M : M3Z) : Fin 3 → Fin 3 :=
  (permTable.foldl (selectStep M) (0, ![0, 1, 2])).2

/-- The pivoted supercell: new column `k` is old column `permutation[pBest][k]`. -/
def pivotSuper (M : M3Z) : M3Z := Matrix.of fun i k => M i (selectPerm M k)

theorem prodScore_nonneg (M : M3Z) (p : Fin 3 → Fin 3) : 0 ≤ prodScore M p := by
  refine Finset.prod_nonneg fun k _ => ?_
  refine div_nonneg (sq_nonneg _) ?_
  have : (0:ℤ) ≤ colNormSq M (p k) := Finset.sum_nonneg fun i _ => sq_nonneg _
  exact_mod_cast this

theorem selectFold_spec (M : M3Z) (l : List (Fin 3 → Fin 3)) :
    ∀ acc : ℚ × (Fin 3 → Fin 3),
      0 ≤ acc.1 →
      (acc.1 = 0 ∨ acc.1 = prodScore M acc.2) →
      (0 ≤ (l.foldl (selectStep M) acc).1 ∧
       ((l.foldl (selectStep M) acc).1 = 0 ∨
        (l.foldl (selectStep M) acc).1 = prodScore M (l.foldl (selectStep M) acc).2) ∧
       acc.1 ≤ (l.foldl (selectStep M) acc).1 ∧
       ∀ p ∈ l, prodScore M p ≤ (l.foldl (selectStep M) acc).1) := by
  induction l with
  | nil =>
      intro acc h0 hch
      exact ⟨h0, hch, le_refl _, by simp⟩
  | cons q l ih =>
      intro acc h0 hch
      rw [List.foldl_cons]
      by_cases hq : prodScore M q > acc.1
      · have hstep : selectStep M acc q = (prodScore M q, q) := by
          unfold selectStep
          rw [if_pos hq]
        rw [hstep]
        obtain ⟨ha, hb, hc, hd⟩ := ih (prodScore M q, q) (prodScore_nonneg M q) (Or.inr rfl)
        refine ⟨ha, hb, le_trans (le_of_lt hq) hc, ?_⟩
        intro p hp
        rcases List.mem_cons.mp hp with hp1 | hp1
        · rw [hp1]; exact hc
        · exact hd p hp1
      · have hstep : selectStep M acc q = acc := by
          unfold selectStep
          rw [if_neg hq]
        rw [hstep]
        obtain ⟨ha, hb, hc, hd⟩ := ih acc h0 hch
        refine ⟨ha, hb, hc, ?_⟩
        intro p hp
        rcases List.mem_cons.mp hp with hp1 | hp1
        · rw [hp1]
          push_neg at hq
          exact le_trans hq hc
        · exact hd p hp1

/-- C1 (amended): the selected permutation attains the maximum of the PRODUCT
score `∏ over columns of (diagonal entry)² / (column squared length)` over the
6 permutations of the table. -/
theorem selectPerm_maximizes_prodScore (M : M3Z) (p : Fin 3 → Fin 3)
    (hp : p ∈ permTable) : prodScore M p ≤ prodScore M (selectPerm M) := by
  obtain ⟨_, hb, _, hd⟩ := selectFold_spec M permTable (0, ![0, 1, 2])
    (le_refl 0) (Or.inl rfl)
  have hple := hd p hp
  rcases hb with hb0 | hbe
  · rw [hb0] at hple
    exact le_trans hple (prodScore_nonneg M _)
  · unfold selectPerm
    rw [← hbe]
    exact hple

/-- Witness for the amended C1 at `M = I`, `p = id`. -/
theorem selectPerm_maximizes_prodScore_witness :
    ![0, 1, 2] ∈ permTable ∧
      prodScore 1 ![0, 1, 2] ≤ prodScore 1 (selectPerm 1) :=
  ⟨by decide, selectPerm_maximizes_prodScore 1 ![0, 1, 2] (by decide)⟩

set_option maxHeartbeats 1000000

/-- Counterexample to C1 as stated: for the non-degenerate, fully reduced
(sweep-fixpoint) integer supercell matrix below, the source selects the
identity permutation (product score 4/81), whose SUM score 23/18 is strictly
below the sum score 13/9 attained by the permutation `{1,0,2}`: the applied
permutation does not maximize the sum-of-ratios score. -/
theorem selectPerm_sumScore_counterexample :
    (!![-2, -2, -1; -1, 1, -1; -2, 1, 2] : M3Z).det ≠ 0 ∧
    (sweep ⟨intCast3 !![-2, -2, -1; -1, 1, -1; -2, 1, 2], 1, 1⟩).2 = false ∧
    ![1, 0, 2] ∈ permTable ∧
    sumScore !![-2, -2, -1; -1, 1, -1; -2, 1, 2]
        (selectPerm !![-2, -2, -1; -1, 1, -1; -2, 1, 2]) <
      sumScore !![-2, -2, -1; -1, 1, -1; -2, 1, 2] ![1, 0, 2] := by
  have hsel : selectPerm !![-2, -2, -1; -1, 1, -1; -2, 1, 2] = ![0, 1, 2] := by
    norm_num [selectPerm, selectStep, permTable, prodScore, colNormSq,
      Fin.prod_univ_three, Fin.sum_univ_three, List.foldl_cons, List.foldl_nil,
      Matrix.vecHead, Matrix.vecTail]
  refine ⟨by decide, ?_, by decide, ?_⟩
  · norm_num +decide [sweep, sweepStep, shearStep, shearCandidates, acceptShear, nrm2sq,
      intCast3, shearMat, shearInvMat, symmThreshold,
      Matrix.mul_apply, Matrix.map_apply, Fin.sum_univ_three,
      List.foldl_cons, List.foldl_nil, List.flatMap_cons, List.flatMap_nil,
      Matrix.vecHead, Matrix.vecTail]
  · rw [hsel]
    norm_num [sumScore, colNormSq, Fin.sum_univ_three, Matrix.vecHead, Matrix.vecTail]

/-! ### Mesh closure (`Supercell::Supercell`, lines 103-125) -/

/-- The per-point record of the source: irreducible index, symmetry index,
inversion flag, and the integer zone offset applied while wrapping. -/
structure KmeshTransform where
  iReduced : ℕ
  iSym : ℕ
  invert : ℤ
  offset : Fin 3 → ℤ

/-- The integer offset recorded while wrapping: `offset[i] = -floor(0.5 + k[i])`. -/
def wrapOffset (x : ℚ) : ℤ := -⌊1/2 + x⌋

/-- Wrapping a fractional coordinate into the centered zone: `k[i] += offset[i]`. -/
def wrapCoord (x : ℚ) : ℚ := x + wrapOffset x

/-- The source's action on a k-point: `k = (~m) * kOrig * invert`. -/
def symApply (m : M3Z) (iv : ℤ) (k : V3Q) : V3Q :=
  fun i => (∑ j, (m j i : ℚ) * k j) * (iv : ℚ)

/-- The growing closed mesh and its aligned transform records. -/
structure KmeshState where
  kmesh : List V3Q
  kmeshTransform : List KmeshTransform

/-- Loop body of the mesh closure: wrap the transformed point, and append it
with its transform record unless the (abstracted, tolerance-fuzzy) lookup
already finds it.  `found` models the external `PeriodicLookup::find`
collaborator of the spec (§6). -/
def kmeshInsert (found : List V3Q → V3Q → Bool) (st : KmeshState)
    (iReduced iSym : ℕ) (iv : ℤ) (k0 : V3Q) : KmeshState :=
  let k : V3Q := fun i => wrapCoord (k0 i)
  let offset : Fin 3 → ℤ := fun i => wrapOffset (k0 i)
  if found st.kmesh k then st
  else ⟨st.kmesh ++ [k], st.kmeshTransform ++ [⟨iReduced, iSym, iv, offset⟩]⟩

/-- The mesh-closure loops of the source: for each inversion flag, each
irreducible point, and each symmetry operation, apply, wrap, and insert. -/
def buildKmesh (found : List V3Q → V3Q → Bool) (kmeshReduced : List V3Q)
    (sym : List M3Z) (invertList : List ℤ) : KmeshState :=
  invertList.foldl (fun st1 iv =>
    (List.range kmeshReduced.length).foldl (fun st2 iReduced =>
      (List.range sym.length).foldl (fun st3 iSym =>
        kmeshInsert found st3 iReduced iSym iv
          (symApply (sym.getD iSym 1) iv (kmeshReduced.getD iReduced (fun _ => 0))))
        st2) st1) ⟨[], []⟩

/-- What C2 asserts of one stored mesh point and its transform record. -/
def KmeshEntryOK (kmeshReduced : List V3Q) (sym : List M3Z) (invertList : List ℤ)
    (k : V3Q) (tr : KmeshTransform) : Prop :=
  tr.iReduced < kmeshReduced.length ∧ tr.iSym < sym.length ∧ tr.invert ∈ invertList ∧
  (∀ i, tr.offset i =
    wrapOffset (symApply (sym.getD tr.iSym 1) tr.invert
      (kmeshReduced.getD tr.iReduced (fun _ => 0)) i)) ∧
  (∀ i, k i =
    symApply (sym.getD tr.iSym 1) tr.invert
      (kmeshReduced.getD tr.iReduced (fun _ => 0)) i + tr.offset i) ∧
  (∀ i, -(1/2 : ℚ) ≤ k i ∧ k i < 1/2)

/-- Invariant of the mesh-closure state. -/
def KmeshStateOK (kmeshReduced : List V3Q) (sym : List M3Z) (invertList : List ℤ)
    (st : KmeshState) : Prop :=
  st.kmesh.length = st.kmeshTransform.length ∧
  ∀ n, n < st.kmesh.length →
    KmeshEntryOK kmeshReduced sym invertList
      (st.kmesh.getD n (fun _ => 0))
      (st.kmeshTransform.getD n ⟨0, 0, 1, fun _ => 0⟩)

theorem wrapCoord_mem_Ico (x : ℚ) : -(1/2 : ℚ) ≤ wrapCoord x ∧ wrapCoord x < 1/2 := by
  unfold wrapCoord wrapOffset
  constructor
  · have h := Int.floor_le ((1:ℚ)/2 + x)
    push_cast
    linarith
  · have h := Int.lt_floor_add_one ((1:ℚ)/2 + x)
    push_cast
    linarith

/-- Generic fold-invariant helper. -/
theorem foldl_preserve {σ α : Type _} (f : σ → α → σ) (l : List α) (P : σ → Prop)
    (hf : ∀ s a, a ∈ l → P s → P (f s a)) : ∀ s, P s → P (l.foldl f s) := by
  induction l with
  | nil => intro s h; exact h
  | cons a l ih =>
      intro s h
      rw [List.foldl_cons]
      exact ih (fun s b hb hs => hf s b (List.mem_cons_of_mem a hb) hs) _
        (hf s a (List.mem_cons_self a l) h)

theorem kmeshStateOK_append {kmeshReduced : List V3Q} {sym : List M3Z}
    {invertList : List ℤ} {st : KmeshState} {k : V3Q} {tr : KmeshTransform}
    (hst : KmeshStateOK kmeshReduced sym invertList st)
    (hk : KmeshEntryOK kmeshReduced sym invertList k tr) :
    KmeshStateOK kmeshReduced sym invertList
      ⟨st.kmesh ++ [k], st.kmeshTransform ++ [tr]⟩ := by
  obtain ⟨hlen, hentry⟩ := hst
  constructor
  · simp [hlen]
  · intro n hn
    have hn2 : n < st.kmesh.length + 1 := by simpa using hn
    by_cases hlt : n < st.kmesh.length
    · show KmeshEntryOK kmeshReduced sym invertList
        ((st.kmesh ++ [k]).getD n (fun _ => 0))
        ((st.kmeshTransform ++ [tr]).getD n ⟨0, 0, 1, fun _ => 0⟩)
      rw [List.getD_append _ _ _ _ hlt, List.getD_append _ _ _ _ (hlen ▸ hlt)]
      exact hentry n hlt
    · have hn' : n = st.kmesh.length := by omega
      subst hn'
      show KmeshEntryOK kmeshReduced sym invertList
        ((st.kmesh ++ [k]).getD st.kmesh.length (fun _ => 0))
        ((st.kmeshTransform ++ [tr]).getD st.kmesh.length ⟨0, 0, 1, fun _ => 0⟩)
      rw [List.getD_append_right _ _ _ _ (le_refl _),
        List.getD_append_right _ _ _ _ (le_of_eq hlen.symm), hlen]
      simp only [Nat.sub_self, List.getD_cons_zero]
      exact hk

theorem kmeshInsert_ok {kmeshReduced : List V3Q} {sym : List M3Z} {invertList : List ℤ}
    (found : List V3Q → V3Q → Bool) {st : KmeshState} {iReduced iSym : ℕ} {iv : ℤ}
    (hst : KmeshStateOK kmeshReduced sym invertList st)
    (hiR : iReduced < kmeshReduced.length) (hiS : iSym < sym.length)
    (hiv : iv ∈ invertList) :
    KmeshStateOK kmeshReduced sym invertList
      (kmeshInsert found st iReduced iSym iv
        (symApply (sym.getD iSym 1) iv (kmeshReduced.getD iReduced (fun _ => 0)))) := by
  unfold kmeshInsert
  by_cases hf : found st.kmesh
      (fun i => wrapCoord (symApply (sym.getD iSym 1) iv
        (kmeshReduced.getD iReduced (fun _ => 0)) i))
  · simp only [hf, if_true]
    exact hst
  · simp only [hf, if_false]
    refine kmeshStateOK_append hst ?_
    refine ⟨hiR, hiS, hiv, fun i => rfl, fun i => rfl, fun i => wrapCoord_mem_Ico _⟩

/-- C2: every point stored by the mesh closure is obtained from an
irreducible k-point by the `(~m) * kOrig * invert` action of a recorded
symmetry operation and inversion flag, wrapped into the centered zone by the
recorded integer offsets `-floor(0.5 + x)`; the mesh and the transform list
stay aligned, and every coordinate of every stored point lies in [-1/2, 1/2). -/
theorem buildKmesh_spec (found : List V3Q → V3Q → Bool) (kmeshReduced : List V3Q)
    (sym : List M3Z) (invertList : List ℤ) :
    (buildKmesh found kmeshReduced sym invertList).kmesh.length =
      (buildKmesh found kmeshReduced sym invertList).kmeshTransform.length ∧
    ∀ n, n < (buildKmesh found kmeshReduced sym invertList).kmesh.length →
      KmeshEntryOK kmeshReduced sym invertList
        ((buildKmesh found kmeshReduced sym invertList).kmesh.getD n (fun _ => 0))
        ((buildKmesh found kmeshReduced sym invertList).kmeshTransform.getD n
          ⟨0, 0, 1, fun _ => 0⟩) := by
  have h0 : KmeshStateOK kmeshReduced sym invertList ⟨[], []⟩ := by
    exact ⟨rfl, fun n hn => absurd hn (by simp)⟩
  refine foldl_preserve _ _ (KmeshStateOK kmeshReduced sym invertList) ?_ _ h0
  intro st1 iv hiv h1
  refine foldl_preserve _ _ (KmeshStateOK kmeshReduced sym invertList) ?_ _ h1
  intro st2 iReduced hiR h2
  refine foldl_preserve _ _ (KmeshStateOK kmeshReduced sym invertList) ?_ _ h2
  intro st3 iSym hiS h3
  exact kmeshInsert_ok found h3 (List.mem_range.mp hiR) (List.mem_range.mp hiS) hiv

/-- Witness for C2 on a concrete one-point mesh with the trivial symmetry
group and no inversion. -/
theorem buildKmesh_spec_witness :
    0 < (buildKmesh (fun _ _ => false) [fun _ => (1:ℚ)/4] [1] [1]).kmesh.length ∧
      KmeshEntryOK [fun _ => (1:ℚ)/4] [1] [1]
        ((buildKmesh (fun _ _ => false) [fun _ => (1:ℚ)/4] [1] [1]).kmesh.getD 0
          (fun _ => 0))
        ((buildKmesh (fun _ _ => false) [fun _ => (1:ℚ)/4] [1] [1]).kmeshTransform.getD 0
          ⟨0, 0, 1, fun _ => 0⟩) := by
  have hlen : 0 < (buildKmesh (fun _ _ => false) [fun _ => (1:ℚ)/4] [1] [1]).kmesh.length := by
    norm_num [buildKmesh, kmeshInsert, List.range_succ]
  exact ⟨hlen,
    (buildKmesh_spec (fun _ _ => false) [fun _ => (1:ℚ)/4] [1] [1]).2 0 hlen⟩

/-! ### Supercell construction: basis discovery, commensurability checks, and
the fatal error paths (`Supercell::Supercell`, lines 127-206) -/

/-- Squared length of a 3-vector. -/
def normSqV (v : V3Q) : ℚ := ∑ i, (v i)^2

/-- Cross product of two 3-vectors. -/
def crossV (a b : V3Q) : V3Q :=
  ![a 1 * b 2 - a 2 * b 1, a 2 * b 0 - a 0 * b 2, a 0 * b 1 - a 1 * b 0]

/-- Scalar triple product `box(a, b, c) = a · (b × c)`. -/
def boxV (a b c : V3Q) : ℚ := ∑ i, a i * crossV b c i

/-- Explicit 3×3 inverse `det⁻¹ • adjugate`; agrees with the true inverse on
non-degenerate matrices and is 0 on degenerate ones. -/
def inv3 (A : M3Q) : M3Q := A.det⁻¹ • A.adjugate

theorem inv3_det (A : M3Q) : (inv3 A).det = A.det⁻¹ := by
  unfold inv3
  rcases eq_or_ne A.det 0 with h0 | h0
  · rw [h0]
    simp [Matrix.det_smul, Matrix.det_adjugate]
  · rw [Matrix.det_smul, Matrix.det_adjugate]
    have h1 : (Fintype.card (Fin 3)) = 3 := by simp
    rw [h1]
    field_simp
    ring

theorem mul_inv3 {A : M3Q} (h : A.det ≠ 0) : A * inv3 A = 1 := by
  unfold inv3
  rw [Matrix.mul_smul, Matrix.mul_adjugate, smul_smul, inv_mul_cancel₀ h, one_smul]

/-- `round()` of C: round half away from zero. -/
def cround (q : ℚ) : ℤ := if q < 0 then -⌊1/2 - q⌋ else ⌊q + 1/2⌋

/-- Modelled from the spec: the `round(x) → (nearestInteger, residual)`
collaborator (§6); `roundErrSqV v` is the squared length of the residual
`v - round(v)`, compared against squared tolerances. -/
def roundErrSqV (v : V3Q) : ℚ := ∑ i, (v i - (cround (v i) : ℚ))^2

/-- The 26 nonzero neighbour-zone offsets, in loop order. -/
def zoneOffsets : List V3Q :=
  ((([-1, 0, 1] : List ℚ).flatMap fun z0 =>
    ([-1, 0, 1] : List ℚ).flatMap fun z1 =>
      ([-1, 0, 1] : List ℚ).map fun z2 => ![z0, z1, z2])).filter
    fun z => decide (normSqV z ≠ 0)

/-- The closed mesh plus its periodic images in the 26 neighbouring zones. -/
def kmesh333 (kmesh : List V3Q) : List V3Q :=
  kmesh ++ zoneOffsets.flatMap fun z => kmesh.map fun k => fun i => k i + z i

/-- The greedy shortest-vector selection of the source: scan candidates
`kmesh333[i] - front` for `i ≥ 1`, keep the shortest passing the guard;
`none` models the `DBL_MAX` initial minimum, the zero vector the
default-initialized `v`. -/
def pickMin (ok : V3Q → Bool) (front : V3Q) (cands : List V3Q) : V3Q :=
  (cands.foldl (fun acc kk =>
    let dk : V3Q := fun i => kk i - front i
    if ok dk then
      match acc.2 with
      | none => (dk, some (normSqV dk))
      | some m => if normSqV dk < m then (dk, some (normSqV dk)) else acc
    else acc) ((fun _ => 0 : V3Q), (none : Option ℚ))).1

/-- `kmesh333.front()`. -/
def kmeshFront (kmesh : List V3Q) : V3Q := (kmesh333 kmesh).headD (fun _ => 0)

/-- The candidates `kmesh333[i]` for `i ≥ 1`. -/
def kmeshCands (kmesh : List V3Q) : List V3Q := (kmesh333 kmesh).drop 1

/-- `v[0]`: the shortest difference vector (no guard). -/
def kBasisV0 (kmesh : List V3Q) : V3Q :=
  pickMin (fun _ => true) (kmeshFront kmesh) (kmeshCands kmesh)

/-- `v[1]`: the shortest difference whose cross product with `v[0]` passes the
tolerance guard `cross(v0,dk).length() > symmThreshold * v0.length()`
(squared exactly). -/
def kBasisV1 (kmesh : List V3Q) : V3Q :=
  pickMin
    (fun dk => decide (normSqV (crossV (kBasisV0 kmesh) dk) >
      symmThreshold^2 * normSqV (kBasisV0 kmesh)))
    (kmeshFront kmesh) (kmeshCands kmesh)

/-- `v[2]`: the shortest difference whose triple product with `v[0]`, `v[1]`
passes `|box(v0,v1,dk)| > symmThreshold * cross(v0,v1).length()` (squared
exactly). -/
def kBasisV2 (kmesh : List V3Q) : V3Q :=
  pickMin
    (fun dk => decide ((boxV (kBasisV0 kmesh) (kBasisV1 kmesh) dk)^2 >
      symmThreshold^2 * normSqV (crossV (kBasisV0 kmesh) (kBasisV1 kmesh))))
    (kmeshFront kmesh) (kmeshCands kmesh)

/-- The matrix whose columns are the discovered basis vectors. -/
def kBasisOf (kmesh : List V3Q) : M3Q :=
  Matrix.of fun i k =>
    ![kBasisV0 kmesh, kBasisV1 kmesh, kBasisV2 kmesh] k i

/-- `kBasis = reduceLatticeVectors(kBasis)` then `kBasisInv = inv(kBasis)`. -/
def kBasisInvOf (kmesh : List V3Q) : M3Q :=
  inv3 ((reduceLatticeVectors (kBasisOf kmesh)).Rreduced)

/-- First fatal condition: some closed-mesh point, expressed in the reduced
reciprocal basis relative to the first mesh point, is non-integral beyond the
tolerance (`err > symmThreshold`, squared exactly). -/
def kmeshNonIntegral (kmesh : List V3Q) : Prop :=
  ∃ kp ∈ kmesh,
    ¬ (roundErrSqV ((kBasisInvOf kmesh).mulVec
        (fun i => kp i - (kmesh.headD (fun _ => 0)) i)) ≤ symmThreshold^2)

/-- Second fatal condition: `||det kBasisInv| - kmesh.size| > kmesh.size * ε`. -/
def kmeshCountMismatch (kmesh : List V3Q) : Prop :=
  ¬ (|(|(kBasisInvOf kmesh).det|) - (kmesh.length : ℚ)| ≤
      (kmesh.length : ℚ) * symmThreshold)

/-- `superTemp = inv(R) * reduceLatticeVectors(R * ~kBasisInv)`. -/
def superTempOf (R : M3Q) (kmesh : List V3Q) : M3Q :=
  inv3 R * (reduceLatticeVectors (R * (kBasisInvOf kmesh)ᵀ)).Rreduced

/-- Third fatal condition: some entry of the derived real-space supercell
matrix is farther than ε from its nearest integer. -/
def superNonInteger (R : M3Q) (kmesh : List V3Q) : Prop :=
  ∃ i j, ¬ (|superTempOf R kmesh i j - (cround (superTempOf R kmesh i j) : ℚ)| ≤
      symmThreshold)

/-- The three fatal diagnostics of this stage of `Supercell::Supercell`. -/
inductive SupercellError where
  | nonIntegralKpoint : SupercellError
  | nonBravaisCount : SupercellError
  | nonIntegerSuper : SupercellError

/-- The first check as the source's loop computes it. -/
def kmeshAllIntegralB (kmesh : List V3Q) : Bool :=
  kmesh.all fun kp => decide (roundErrSqV ((kBasisInvOf kmesh).mulVec
    (fun i => kp i - (kmesh.headD (fun _ => 0)) i)) ≤ symmThreshold^2)

/-- The second check. -/
def kmeshCountOkB (kmesh : List V3Q) : Bool :=
  decide (|(|(kBasisInvOf kmesh).det|) - (kmesh.length : ℚ)| ≤
    (kmesh.length : ℚ) * symmThreshold)

/-- The third check, over all 9 entries. -/
def superIntegerOkB (R : M3Q) (kmesh : List V3Q) : Bool :=
  (List.finRange 3).all fun i => (List.finRange 3).all fun j =>
    decide (|superTempOf R kmesh i j -
      (cround (superTempOf R kmesh i j) : ℚ)| ≤ symmThreshold)

/-- Lines 178-206 of the source: the three `die(...)` checks in order, then
the rounded integer supercell matrix.  A fatal `die` is modelled as
`Except.error`; there is no other error path. -/
def buildSuper (R : M3Q) (kmesh : List V3Q) : Except SupercellError M3Z :=
  if kmeshAllIntegralB kmesh then
    if kmeshCountOkB kmesh then
      if superIntegerOkB R kmesh then
        Except.ok (Matrix.of fun i j => cround (superTempOf R kmesh i j))
      else Except.error SupercellError.nonIntegerSuper
    else Except.error SupercellError.nonBravaisCount
  else Except.error SupercellError.nonIntegralKpoint

/-- C7: this stage of supercell construction fails - always fatally, there is
no other error path - exactly when one of the three conditions holds: a
closed-mesh point non-integral in the reduced reciprocal basis beyond ε, the
absolute determinant of the inverse reciprocal basis off the mesh count by
more than the relative tolerance, or an entry of the derived supercell matrix
farther than ε from its nearest integer.  Otherwise it returns the rounded
integer supercell matrix. -/
theorem buildSuper_spec (R : M3Q) (kmesh : List V3Q) :
    ((∃ e, buildSuper R kmesh = Except.error e) ↔
      (kmeshNonIntegral kmesh ∨ kmeshCountMismatch kmesh ∨ superNonInteger R kmesh)) ∧
    (¬ (kmeshNonIntegral kmesh ∨ kmeshCountMismatch kmesh ∨ superNonInteger R kmesh) →
      buildSuper R kmesh =
        Except.ok (Matrix.of fun i j => cround (superTempOf R kmesh i j))) := by
  have hb1 : (kmeshAllIntegralB kmesh = true) ↔ ¬ kmeshNonIntegral kmesh := by
    unfold kmeshAllIntegralB kmeshNonIntegral
    simp [List.all_eq_true]
  have hb2 : (kmeshCountOkB kmesh = true) ↔ ¬ kmeshCountMismatch kmesh := by
    unfold kmeshCountOkB kmeshCountMismatch
    simp
  have hb3 : (superIntegerOkB R kmesh = true) ↔ ¬ superNonInteger R kmesh := by
    unfold superIntegerOkB superNonInteger
    simp [List.all_eq_true, List.mem_finRange]
  unfold buildSuper
  by_cases h1 : (kmeshAllIntegralB kmesh = true)
  · by_cases h2 : (kmeshCountOkB kmesh = true)
    · by_cases h3 : (superIntegerOkB R kmesh = true)
      · simp only [h1, h2, h3, if_true]
        constructor
        · constructor
          · rintro ⟨e, he⟩
            exact absurd he (by simp)
          · intro hd
            rcases hd with hd | hd | hd
            · exact absurd hd (hb1.mp h1)
            · exact absurd hd (hb2.mp h2)
            · exact absurd hd (hb3.mp h3)
        · intro _
          trivial
      · simp only [h1, h2, if_true, h3, if_false]
        have hc : superNonInteger R kmesh := by
          by_contra hc
          exact h3 (hb3.mpr hc)
        constructor
        · constructor
          · intro _
            exact Or.inr (Or.inr hc)
          · intro _
            exact ⟨SupercellError.nonIntegerSuper, rfl⟩
        · intro hd
          exact absurd (Or.inr (Or.inr hc)) hd
    · simp only [h1, if_true, h2, if_false]
      have hc : kmeshCountMismatch kmesh := by
        by_contra hc
        exact h2 (hb2.mpr hc)
      constructor
      · constructor
        · intro _
          exact Or.inr (Or.inl hc)
        · intro _
          exact ⟨SupercellError.nonBravaisCount, rfl⟩
      · intro hd
        exact absurd (Or.inr (Or.inl hc)) hd
  · simp only [h1, if_false]
    have hc : kmeshNonIntegral kmesh := by
      by_contra hc
      exact h1 (hb1.mpr hc)
    constructor
    · constructor
      · intro _
        exact Or.inl hc
      · intro _
        exact ⟨SupercellError.nonIntegralKpoint, rfl⟩
    · intro hd
      exact absurd (Or.inl hc) hd

/-! Evaluation helpers for the C7 witness (the empty mesh, where every
derived quantity is zero). -/

theorem acceptShear_zero_zero : acceptShear 0 0 = false := by
  unfold acceptShear
  norm_num [nrm2sq_zero, symmThreshold]

theorem foldl_sweepStep_zero (l : List (Fin 3 × ℤ × ℤ)) :
    ∀ acc : RedState × Bool, acc.1.Rreduced = 0 → l.foldl sweepStep acc = acc := by
  induction l with
  | nil => intro acc _; rfl
  | cons c l ih =>
      intro acc hz
      rw [List.foldl_cons]
      have hstep : shearStep acc.1 c = (acc.1, false) := by
        unfold shearStep
        simp only [hz, Matrix.zero_mul, acceptShear_zero_zero, Bool.false_eq_true,
          if_false]
      have hsw : sweepStep acc c = acc := by
        unfold sweepStep
        rw [hstep]
        simp
      rw [hsw]
      exact ih acc hz

theorem reduceLatticeVectors_zero : reduceLatticeVectors 0 = ⟨0, 1, 1⟩ := by
  have hfuel : reduceFuel 0 = 1 := by
    unfold reduceFuel
    rw [nrm2sq_zero]
    norm_num
  unfold reduceLatticeVectors
  rw [hfuel]
  have hsw : sweep ⟨0, 1, 1⟩ = (⟨0, 1, 1⟩, false) := by
    unfold sweep
    exact foldl_sweepStep_zero shearCandidates (⟨0, 1, 1⟩, false) rfl
  unfold reduceLoop
  rw [hsw]
  simp

theorem kmesh333_nil : kmesh333 [] = [] := by
  simp [kmesh333]

theorem kmeshCands_nil : kmeshCands [] = [] := by
  unfold kmeshCands
  rw [kmesh333_nil]
  rfl

theorem kBasisV0_nil : kBasisV0 [] = fun _ => 0 := by
  unfold kBasisV0
  rw [kmeshCands_nil]
  rfl

theorem kBasisV1_nil : kBasisV1 [] = fun _ => 0 := by
  unfold kBasisV1
  rw [kmeshCands_nil]
  rfl

theorem kBasisV2_nil : kBasisV2 [] = fun _ => 0 := by
  unfold kBasisV2
  rw [kmeshCands_nil]
  rfl

theorem kBasisOf_nil : kBasisOf [] = 0 := by
  unfold kBasisOf
  rw [kBasisV0_nil, kBasisV1_nil, kBasisV2_nil]
  ext i j
  fin_cases j <;> rfl

theorem kBasisInvOf_nil : kBasisInvOf [] = 0 := by
  unfold kBasisInvOf
  rw [kBasisOf_nil, reduceLatticeVectors_zero]
  show inv3 0 = 0
  unfold inv3
  rw [Matrix.det_zero ⟨0⟩]
  simp

theorem superTempOf_one_nil : superTempOf 1 [] = 0 := by
  unfold superTempOf
  rw [kBasisInvOf_nil, Matrix.transpose_zero, Matrix.mul_zero,
    reduceLatticeVectors_zero]
  show inv3 1 * (0 : M3Q) = 0
  rw [Matrix.mul_zero]

theorem cround_zero : cround 0 = 0 := by
  unfold cround
  norm_num

/-- Witness for C7 on the empty mesh with the identity unit lattice: no fatal
condition holds and the stage returns the (zero) integer matrix. -/
theorem buildSuper_spec_witness :
    ¬ (kmeshNonIntegral [] ∨ kmeshCountMismatch [] ∨ superNonInteger 1 []) ∧
      buildSuper 1 [] =
        Except.ok (Matrix.of fun i j => cround (superTempOf 1 [] i j)) := by
  have hprf : ¬ (kmeshNonIntegral [] ∨ kmeshCountMismatch [] ∨ superNonInteger 1 []) := by
    intro hd
    rcases hd with hd | hd | hd
    · obtain ⟨kp, hkp, _⟩ := hd
      exact absurd hkp (by simp)
    · apply hd
      rw [kBasisInvOf_nil, Matrix.det_zero ⟨0⟩]
      norm_num
    · obtain ⟨i, j, hij⟩ := hd
      apply hij
      rw [superTempOf_one_nil]
      show |(0:ℚ) - (cround ((0:M3Q) i j) : ℚ)| ≤ symmThreshold
      have hz : ((0:M3Q) i j) = 0 := rfl
      rw [hz, cround_zero]
      norm_num [symmThreshold]
  exact ⟨hprf, (buildSuper_spec 1 []).2 hprf⟩

/-! ### Real-space cell map (`getCellMap`, lines 236-302) -/

/-- Modelled from the spec: the Wigner-Seitz predicate collaborator (§6),
exposing `circumRadius()`, `onBoundary(fractionalPoint)`, and
`boundaryDistance(fractionalPoint)` (positive strictly inside). -/
structure WignerSeitzModel where
  circumRadius : ℚ
  onBoundary : V3Q → Bool
  boundaryDistance : V3Q → ℚ

/-- `⌈√a⌉` for `a ≥ 0` (0 for `a ≤ 0`), computed exactly in the rationals. -/
def ceilSqrtQ (a : ℚ) : ℤ :=
  if a ≤ 0 then 0
  else if a ≤ ((Nat.sqrt ⌈a⌉₊ : ℚ))^2 then (Nat.sqrt ⌈a⌉₊ : ℤ)
  else (Nat.sqrt ⌈a⌉₊ : ℤ) + 1

/-- `⌊√a⌋` for `a ≥ 0` (0 for `a ≤ 0`). -/
def floorSqrtQ (a : ℚ) : ℤ :=
  if a ≤ 0 then 0 else (Nat.sqrt ⌊a⌋₊ : ℤ)

/-- `⌈c·√q⌉` (for `q ≥ 0`), the exact value of the source's
`int(ceil(Rmax * invR.row(l).length()))`. -/
def ceilMulSqrt (c q : ℚ) : ℤ :=
  if 0 ≤ c then ceilSqrtQ (c^2 * q) else -floorSqrtQ (c^2 * q)

/-- Entrywise cast of an integer vector. -/
def intCastV (v : V3Z) : V3Q := fun i => (v i : ℚ)

/-- The bounding box of the supercell Wigner-Seitz circumradius, in unit-cell
lattice coordinates: `iCellMax[l] = 1 + ceil(Rmax * ‖row l of R⁻¹‖)`. -/
def iCellMaxOf (R : M3Q) (ws : WignerSeitzModel) : Fin 3 → ℤ :=
  fun l => 1 + ceilMulSqrt ws.circumRadius (∑ k, (inv3 R l k)^2)

/-- `[-n, ..., n]` in loop order. -/
def rangeZ (n : ℤ) : List ℤ :=
  (List.range (2*n+1).toNat).map fun k => -n + (k : ℤ)

/-- All integer triples of the bounding box, in the source's loop order. -/
def cellsInBox (m : Fin 3 → ℤ) : List V3Z :=
  (rangeZ (m 0)).flatMap fun a =>
    (rangeZ (m 1)).flatMap fun b =>
      (rangeZ (m 2)).map fun c => ![a, b, c]

/-- `superInv = inv(Rsup) * R`. -/
def superInvOf (R Rsup : M3Q) : M3Q := inv3 Rsup * R

/-- Classification of one candidate cell: on the Wigner-Seitz boundary
(defer to the surface list), strictly interior (weight 1), or exterior
(discard). -/
def classifyStep (ws : WignerSeitzModel) (superInv : M3Q)
    (acc : List (V3Z × ℚ) × List V3Z) (iCell : V3Z) :
    List (V3Z × ℚ) × List V3Z :=
  let xCell := superInv.mulVec (intCastV iCell)
  if ws.onBoundary xCell then (acc.1, acc.2 ++ [iCell])
  else if 0 < ws.boundaryDistance xCell then (acc.1 ++ [(iCell, 1)], acc.2)
  else acc

/-- The enumeration loop of `getCellMap`. -/
def classifyCells (ws : WignerSeitzModel) (superInv : M3Q) (cells : List V3Z) :
    List (V3Z × ℚ) × List V3Z :=
  cells.foldl (classifyStep ws superInv) ([], [])

/-- The source's equivalence test for two deferred boundary cells: their
difference, in supercell-fractional coordinates, rounds to integers with
residual below tolerance (`err < symmThreshold`, squared exactly). -/
def isSuperIntegral (superInv : M3Q) (v : V3Z) : Bool :=
  decide (roundErrSqV (superInv.mulVec (intCastV v)) < symmThreshold^2)

/-- Boundary-multiplicity resolution: for each not-yet-grouped deferred cell,
collect the later deferred cells equivalent to it under a supercell
translation, give every member of the class weight `1/(class size)`, and
continue with the rest. -/
def groupSurface (superInv : M3Q) : List V3Z → List (V3Z × ℚ)
  | [] => []
  | v :: rest =>
    ((v, (1 : ℚ) / (1 + (rest.filter fun u =>
        isSuperIntegral superInv (fun i => u i - v i)).length)) ::
      (rest.filter fun u => isSuperIntegral superInv (fun i => u i - v i)).map
        fun u => (u, (1 : ℚ) / (1 + (rest.filter fun u2 =>
          isSuperIntegral superInv (fun i => u2 i - v i)).length))) ++
      groupSurface superInv
        (rest.filter fun u => ! isSuperIntegral superInv (fun i => u i - v i))
termination_by l => l.length
decreasing_by
  simp only [List.length_cons]
  exact Nat.lt_succ_of_le (List.length_filter_le _ _)

/-- The interior map and deferred surface list over the bounding box. -/
def cellMapPieces (R Rsup : M3Q) (ws : WignerSeitzModel) :
    List (V3Z × ℚ) × List V3Z :=
  classifyCells ws (superInvOf R Rsup) (cellsInBox (iCellMaxOf R ws))

/-- The full cell map: interior cells plus resolved boundary classes. -/
def cellMapList (R Rsup : M3Q) (ws : WignerSeitzModel) : List (V3Z × ℚ) :=
  (cellMapPieces R Rsup ws).1 ++
    groupSurface (superInvOf R Rsup) (cellMapPieces R Rsup ws).2

/-- `nCells = round(fabs(1 / det(superInv)))`. -/
def nCellsOf (R Rsup : M3Q) : ℤ := cround |1 / (superInvOf R Rsup).det|

/-- `getCellMap` of the source: bound the search box, classify every cell in
it, resolve boundary multiplicities, and assert weight conservation
(`myassert(fabs(weightSum / nCells - 1) < symmThreshold)`, modelled as the
`none` branch).  The optional file dump is I/O and not part of the map. -/
def getCellMap (R Rsup : M3Q) (ws : WignerSeitzModel) :
    Option (List (V3Z × ℚ)) :=
  if |((cellMapList R Rsup ws).map Prod.snd).sum / (nCellsOf R Rsup : ℚ) - 1| <
      symmThreshold
  then some (cellMapList R Rsup ws) else none

theorem cround_intCast (n : ℤ) : cround (n : ℚ) = n := by
  unfold cround
  by_cases hn : ((n:ℚ)) < 0
  · rw [if_pos hn]
    have he : (1:ℚ)/2 - n = 1/2 + ((-n : ℤ) : ℚ) := by push_cast; ring
    rw [he, Int.floor_add_int]
    have h0 : ⌊(1:ℚ)/2⌋ = 0 := by norm_num
    rw [h0]
    ring
  · rw [if_neg hn]
    have he : (n:ℚ) + 1/2 = 1/2 + ((n : ℤ) : ℚ) := by ring
    rw [he, Int.floor_add_int]
    have h0 : ⌊(1:ℚ)/2⌋ = 0 := by norm_num
    rw [h0]
    ring

theorem getCellMap_elim {R Rsup : M3Q} {ws : WignerSeitzModel} {m : List (V3Z × ℚ)}
    (h : getCellMap R Rsup ws = some m) :
    m = cellMapList R Rsup ws ∧
    |((cellMapList R Rsup ws).map Prod.snd).sum / (nCellsOf R Rsup : ℚ) - 1| <
      symmThreshold := by
  unfold getCellMap at h
  split at h
  · next hg => exact ⟨(Option.some_injective _ h).symm, hg⟩
  · next => exact absurd h (by simp)

/-- C3: whenever `getCellMap` returns a map (rather than dying on the weight
assertion) and the supercell is an integer multiple `Rsup = R·S` of a
non-degenerate unit lattice, the weights sum to the integer cell count
`|det S| = det(Rsup)/det(R)` within the (relative) tolerance of the source's
assertion. -/
theorem getCellMap_weight_sum (R Rsup : M3Q) (ws : WignerSeitzModel) (S : M3Z)
    (hS : Rsup = R * intCast3 S) (hR : R.det ≠ 0) (hSdet : S.det ≠ 0)
    (m : List (V3Z × ℚ)) (h : getCellMap R Rsup ws = some m) :
    |((m.map Prod.snd).sum) - ((S.det.natAbs : ℤ) : ℚ)| <
      ((S.det.natAbs : ℤ) : ℚ) * symmThreshold := by
  obtain ⟨hm, hg⟩ := getCellMap_elim h
  have hc : ((S.det : ℤ):ℚ) ≠ 0 := by exact_mod_cast hSdet
  have hsdet : (superInvOf R Rsup).det = ((S.det : ℤ) : ℚ)⁻¹ := by
    unfold superInvOf
    rw [Matrix.det_mul, inv3_det, hS, Matrix.det_mul, intCast3_det]
    field_simp
  have habs : |((S.det : ℤ):ℚ)| = ((S.det.natAbs : ℤ) : ℚ) := by
    push_cast
    ring
  have hn : nCellsOf R Rsup = (S.det.natAbs : ℤ) := by
    unfold nCellsOf
    rw [hsdet, one_div, inv_inv, habs]
    exact cround_intCast _
  have hNpos : (0:ℚ) < ((S.det.natAbs : ℤ) : ℚ) := by
    have h1 : 0 < S.det.natAbs := Int.natAbs_pos.mpr hSdet
    exact_mod_cast h1
  rw [hm]
  rw [hn] at hg
  set W : ℚ := (((cellMapList R Rsup ws).map Prod.snd).sum) with hW
  set N : ℚ := ((S.det.natAbs : ℤ) : ℚ) with hN
  have hNne : N ≠ 0 := ne_of_gt hNpos
  calc |W - N| = |(W / N - 1) * N| := by
        congr 1
        field_simp
    _ = |W / N - 1| * N := by
        rw [abs_mul, abs_of_pos hNpos]
    _ < symmThreshold * N := mul_lt_mul_of_pos_right hg hNpos
    _ = N * symmThreshold := mul_comm _ _

theorem classifyCells_interior (ws : WignerSeitzModel) (superInv : M3Q)
    (cells : List V3Z) :
    ∀ p ∈ (classifyCells ws superInv cells).1, p.2 = 1 := by
  unfold classifyCells
  refine foldl_preserve (classifyStep ws superInv) cells
    (fun acc : List (V3Z × ℚ) × List V3Z => ∀ p ∈ acc.1, p.2 = 1) ?_ _ (by simp)
  intro acc iCell _ hacc
  unfold classifyStep
  by_cases hb : ws.onBoundary (superInv.mulVec (intCastV iCell))
  · simp only [hb, if_true]
    exact hacc
  · simp only [hb, Bool.false_eq_true, if_false]
    by_cases hd : 0 < ws.boundaryDistance (superInv.mulVec (intCastV iCell))
    · simp only [hd, if_true]
      intro p hp
      rcases List.mem_append.mp hp with hp1 | hp1
      · exact hacc p hp1
      · rcases List.mem_singleton.mp hp1 with rfl
        rfl
    · simp only [hd, if_false]
      exact hacc

theorem groupSurface_struct_aux (superInv : M3Q) :
    ∀ (n : ℕ) (l : List V3Z), l.length ≤ n → ∀ p ∈ groupSurface superInv l,
      ∃ (rep : V3Z) (equiv : List V3Z),
        p.2 = 1 / (1 + (equiv.length : ℚ)) ∧
        (p.1 = rep ∨ p.1 ∈ equiv) ∧
        (∀ u ∈ equiv, isSuperIntegral superInv (fun i => u i - rep i) = true) ∧
        (rep, p.2) ∈ groupSurface superInv l ∧
        (∀ u ∈ equiv, (u, p.2) ∈ groupSurface superInv l) := by
  intro n
  induction n with
  | zero =>
      intro l hl p hp
      have hnil : l = [] := List.eq_nil_of_length_eq_zero (Nat.le_zero.mp hl)
      subst hnil
      rw [show groupSurface superInv [] = [] from by rw [groupSurface]] at hp
      exact absurd hp (by simp)
  | succ n ih =>
    intro l hl p hp
    cases l with
    | nil =>
        rw [show groupSurface superInv [] = [] from by rw [groupSurface]] at hp
        exact absurd hp (by simp)
    | cons v rest =>
        have heq : groupSurface superInv (v :: rest) =
            ((v, (1 : ℚ) / (1 + (rest.filter fun u =>
                isSuperIntegral superInv (fun i => u i - v i)).length)) ::
              (rest.filter fun u => isSuperIntegral superInv (fun i => u i - v i)).map
                fun u => (u, (1 : ℚ) / (1 + (rest.filter fun u2 =>
                  isSuperIntegral superInv (fun i => u2 i - v i)).length))) ++
              groupSurface superInv
                (rest.filter fun u => ! isSuperIntegral superInv (fun i => u i - v i)) := by
          rw [groupSurface]
        rw [heq] at hp
        rcases List.mem_append.mp hp with hp1 | hp1
        · rcases List.mem_cons.mp hp1 with hp2 | hp2
          · refine ⟨v, rest.filter fun u => isSuperIntegral superInv (fun i => u i - v i),
              ?_, ?_, ?_, ?_, ?_⟩
            · rw [hp2]
            · left; rw [hp2]
            · intro u hu
              exact (List.mem_filter.mp hu).2
            · rw [heq, hp2]
              exact List.mem_append_left _ (List.mem_cons_self _ _)
            · intro u hu
              rw [heq, hp2]
              refine List.mem_append_left _ (List.mem_cons_of_mem _ ?_)
              exact List.mem_map.mpr ⟨u, hu, rfl⟩
          · obtain ⟨u, hu, hup⟩ := List.mem_map.mp hp2
            refine ⟨v, rest.filter fun w => isSuperIntegral superInv (fun i => w i - v i),
              ?_, ?_, ?_, ?_, ?_⟩
            · rw [← hup]
            · right; rw [← hup]; exact hu
            · intro w hw
              exact (List.mem_filter.mp hw).2
            · rw [heq, ← hup]
              exact List.mem_append_left _ (List.mem_cons_self _ _)
            · intro w hw
              rw [heq, ← hup]
              refine List.mem_append_left _ (List.mem_cons_of_mem _ ?_)
              exact List.mem_map.mpr ⟨w, hw, rfl⟩
        · have hlt : (rest.filter fun u =>
              ! isSuperIntegral superInv (fun i => u i - v i)).length ≤ n := by
            have hle := List.length_filter_le
              (fun u => ! isSuperIntegral superInv (fun i => u i - v i)) rest
            simp only [List.length_cons] at hl
            exact le_trans hle (Nat.succ_le_succ_iff.mp hl)
          obtain ⟨rep, equiv, h1, h2, h3, h4, h5⟩ := ih _ hlt p hp1
          refine ⟨rep, equiv, h1, h2, h3, ?_, ?_⟩
          · rw [heq]
            exact List.mem_append_right _ h4
          · intro u hu
            rw [heq]
            exact List.mem_append_right _ (h5 u hu)

theorem groupSurface_struct (superInv : M3Q) (l : List V3Z) (p : V3Z × ℚ)
    (hp : p ∈ groupSurface superInv l) :
    ∃ (rep : V3Z) (equiv : List V3Z),
      p.2 = 1 / (1 + (equiv.length : ℚ)) ∧
      (p.1 = rep ∨ p.1 ∈ equiv) ∧
      (∀ u ∈ equiv, isSuperIntegral superInv (fun i => u i - rep i) = true) ∧
      (rep, p.2) ∈ groupSurface superInv l ∧
      (∀ u ∈ equiv, (u, p.2) ∈ groupSurface superInv l) :=
  groupSurface_struct_aux superInv l.length l (le_refl _) p hp

/-- C8: in the returned cell map, interior cells carry weight exactly 1; every
boundary entry produced by the multiplicity resolution carries weight
`1/(class size)` where its class is the filtered set of later deferred vectors
whose difference with the class representative is integral in
supercell-fractional coordinates within tolerance; all members of a class
(representative included) appear with that same shared weight; and every
weight in the map lies in (0, 1]. -/
theorem getCellMap_boundary_weights (R Rsup : M3Q) (ws : WignerSeitzModel)
    (m : List (V3Z × ℚ)) (h : getCellMap R Rsup ws = some m) :
    m = (cellMapPieces R Rsup ws).1 ++
      groupSurface (superInvOf R Rsup) (cellMapPieces R Rsup ws).2 ∧
    (∀ p ∈ (cellMapPieces R Rsup ws).1, p.2 = 1) ∧
    (∀ p ∈ m, 0 < p.2 ∧ p.2 ≤ 1) ∧
    (∀ p ∈ groupSurface (superInvOf R Rsup) (cellMapPieces R Rsup ws).2,
      ∃ (rep : V3Z) (equiv : List V3Z),
        p.2 = 1 / (1 + (equiv.length : ℚ)) ∧
        (p.1 = rep ∨ p.1 ∈ equiv) ∧
        (∀ u ∈ equiv,
          isSuperIntegral (superInvOf R Rsup) (fun i => u i - rep i) = true) ∧
        (rep, p.2) ∈ groupSurface (superInvOf R Rsup) (cellMapPieces R Rsup ws).2 ∧
        (∀ u ∈ equiv,
          (u, p.2) ∈ groupSurface (superInvOf R Rsup) (cellMapPieces R Rsup ws).2)) := by
  obtain ⟨hm, _⟩ := getCellMap_elim h
  have hinterior := classifyCells_interior ws (superInvOf R Rsup)
    (cellsInBox (iCellMaxOf R ws))
  refine ⟨hm, hinterior, ?_, ?_⟩
  · intro p hp
    rw [hm] at hp
    rcases List.mem_append.mp hp with hp1 | hp1
    · rw [hinterior p hp1]
      norm_num
    · obtain ⟨rep, equiv, h1, _⟩ := groupSurface_struct _ _ _ hp1
      rw [h1]
      have hlen : (0:ℚ) < 1 + (equiv.length : ℚ) := by positivity
      constructor
      · positivity
      · rw [div_le_one hlen]
        have : (0:ℚ) ≤ (equiv.length : ℚ) := by positivity
        linarith
  · intro p hp
    exact groupSurface_struct _ _ _ hp

/-! Concrete witness instance for the cell map: unit lattice = supercell =
identity, Wigner-Seitz model with circumradius 0 whose interior is exactly
the origin cell. -/

/-- A concrete Wigner-Seitz collaborator: circumradius 0, no boundary, and
only the origin strictly inside. -/
def wsModel0 : WignerSeitzModel :=
  ⟨0, fun _ => false, fun x => if x 0 = 0 ∧ x 1 = 0 ∧ x 2 = 0 then 1 else -1⟩

theorem inv3_one : inv3 (1 : M3Q) = 1 := by
  unfold inv3
  rw [Matrix.det_one, Matrix.adjugate_one]
  simp

theorem superInvOf_one_one : superInvOf 1 1 = 1 := by
  unfold superInvOf
  rw [inv3_one, Matrix.mul_one]

theorem iCellMaxOf_one : iCellMaxOf 1 wsModel0 = fun _ => 1 := by
  funext l
  unfold iCellMaxOf ceilMulSqrt ceilSqrtQ wsModel0
  norm_num

theorem cellsInBox_one : cellsInBox (fun _ => 1) =
    [![-1, -1, -1], ![-1, -1, 0], ![-1, -1, 1], ![-1, 0, -1], ![-1, 0, 0],
    ![-1, 0, 1], ![-1, 1, -1], ![-1, 1, 0], ![-1, 1, 1], ![0, -1, -1],
    ![0, -1, 0], ![0, -1, 1], ![0, 0, -1], ![0, 0, 0], ![0, 0, 1],
    ![0, 1, -1], ![0, 1, 0], ![0, 1, 1], ![1, -1, -1], ![1, -1, 0],
    ![1, -1, 1], ![1, 0, -1], ![1, 0, 0], ![1, 0, 1], ![1, 1, -1],
    ![1, 1, 0], ![1, 1, 1]] := by
  decide

theorem cellMapPieces_concrete :
    cellMapPieces 1 1 wsModel0 = ([(![0, 0, 0], (1:ℚ))], []) := by
  unfold cellMapPieces
  rw [superInvOf_one_one, iCellMaxOf_one, cellsInBox_one]
  norm_num +decide [classifyCells, classifyStep, wsModel0,
    intCastV, Matrix.one_mulVec, List.foldl_cons, List.foldl_nil,
    Matrix.vecHead, Matrix.vecTail]

theorem getCellMap_concrete :
    getCellMap 1 1 wsModel0 = some [(![0, 0, 0], (1:ℚ))] := by
  have hlist : cellMapList 1 1 wsModel0 = [(![0, 0, 0], (1:ℚ))] := by
    unfold cellMapList
    rw [cellMapPieces_concrete, superInvOf_one_one]
    rw [show groupSurface 1 [] = [] from by rw [groupSurface]]
    simp
  have hn : nCellsOf 1 1 = 1 := by
    unfold nCellsOf
    rw [superInvOf_one_one, Matrix.det_one]
    norm_num [cround]
  unfold getCellMap
  rw [hlist, hn]
  norm_num [symmThreshold]

/-- Witness for C3 on the identity unit cell and identity supercell. -/
theorem getCellMap_weight_sum_witness :
    (1 : M3Q) = 1 * intCast3 (1 : M3Z) ∧ Matrix.det (1 : M3Q) ≠ 0 ∧
    Matrix.det (1 : M3Z) ≠ 0 ∧
    getCellMap 1 1 wsModel0 = some [(![0, 0, 0], (1:ℚ))] ∧
    |((([(![0, 0, 0], (1:ℚ))] : List (V3Z × ℚ)).map Prod.snd).sum) - ((1:ℤ) : ℚ)| <
      ((1:ℤ) : ℚ) * symmThreshold := by
  have h1 : (1 : M3Q) = 1 * intCast3 (1 : M3Z) := by
    rw [intCast3_one, Matrix.mul_one]
  have h2 : Matrix.det (1 : M3Q) ≠ 0 := by simp
  have h3 : Matrix.det (1 : M3Z) ≠ 0 := by simp
  have hmain := getCellMap_weight_sum 1 1 wsModel0 1 h1 h2 h3 _ getCellMap_concrete
  refine ⟨h1, h2, h3, getCellMap_concrete, ?_⟩
  simpa using hmain

/-- Witness for C8 on the same concrete instance. -/
theorem getCellMap_boundary_weights_witness :
    getCellMap 1 1 wsModel0 = some [(![0, 0, 0], (1:ℚ))] ∧
    ∀ p ∈ (cellMapPieces 1 1 wsModel0).1, p.2 = 1 := by
  refine ⟨getCellMap_concrete, ?_⟩
  exact (getCellMap_boundary_weights 1 1 wsModel0 _ getCellMap_concrete).2.1

end LatticeUtils
